import Mathlib

/- Shallow embedding of the change-detection core of geobc-changedetection
   (src/changedetection/core/change_detector.py together with the constants of
   src/changedetection/core/utils.py), and proofs about it.

   Conventions used throughout:
   * sqlite tables are modelled as Lean lists of rows; a database catalogue is a
     list of (table name, content) pairs.
   * the SHA-256 hex digest is modelled as an abstract digest function
     H : String → String passed as a parameter; theorems that need
     collision-freeness take injectivity of H as a hypothesis.
   * a field value read by ogr GetFieldAsString is modelled as Option String,
     where none stands for a SQL null. -/

namespace ChangeDetection

/-- Character class of the regex word class used in re.sub applied to the
pattern of one or more non word characters: letters, digits and underscore. -/
def isWordChar (c : Char) : Bool := c.isAlphanum || c == '_'

/-- Python str.strip: remove leading and trailing whitespace characters. -/
def pyStrip (l : List Char) : List Char :=
  ((l.dropWhile Char.isWhitespace).reverse.dropWhile Char.isWhitespace).reverse

/-- str.replace of the one-character pattern of a space maps each space
character to an underscore. -/
def spaceToUnderscore (c : Char) : Char := if c == ' ' then '_' else c

/-- scrub from change_detector.py: strip surrounding whitespace, replace every
space with an underscore, then delete every remaining non word character. -/
def scrub (s : String) : String :=
  String.mk (((pyStrip s.data).map spaceToUnderscore).filter isWordChar)

theorem word_char_not_whitespace {c : Char} (h : isWordChar c = true) :
    c.isWhitespace = false := by
  cases hw : c.isWhitespace with
  | false => rfl
  | true =>
    exfalso
    have hc : c = ' ' ∨ c = '\t' ∨ c = '\r' ∨ c = '\n' := by
      simp [Char.isWhitespace] at hw; tauto
    rcases hc with h1 | h1 | h1 | h1 <;> subst h1 <;> exact absurd h (by decide)

theorem dropWhile_eq_self_of_not {p : Char → Bool} {l : List Char}
    (h : ∀ c ∈ l, p c = false) : l.dropWhile p = l := by
  cases l with
  | nil => rfl
  | cons a t =>
      have ha : p a = false := h a (List.mem_cons_self a t)
      simp [List.dropWhile_cons, ha]

theorem pyStrip_eq_self_of_word {l : List Char} (h : ∀ c ∈ l, isWordChar c = true) :
    pyStrip l = l := by
  have hw : ∀ c ∈ l, Char.isWhitespace c = false :=
    fun c hc => word_char_not_whitespace (h c hc)
  unfold pyStrip
  rw [dropWhile_eq_self_of_not hw]
  rw [dropWhile_eq_self_of_not (fun c hc => hw c (List.mem_reverse.mp hc))]
  exact List.reverse_reverse l

/-- C10: the provider-name scrubbing function is idempotent, and its output
contains only alphanumeric and underscore characters (spaces become
underscores, every other non word character is removed), so scrubbed names are
fixed points safe to embed in table names. -/
theorem scrub_idempotent_and_word_only (s : String) :
    scrub (scrub s) = scrub s ∧ ∀ c ∈ (scrub s).data, isWordChar c = true := by
  have hword : ∀ c ∈ ((pyStrip s.data).map spaceToUnderscore).filter isWordChar,
      isWordChar c = true := fun c hc => List.of_mem_filter hc
  refine ⟨?_, hword⟩
  set l := ((pyStrip s.data).map spaceToUnderscore).filter isWordChar with hl
  have h1 : pyStrip l = l := pyStrip_eq_self_of_word hword
  have h2 : l.map spaceToUnderscore = l := by
    have hcc : ∀ c ∈ l, spaceToUnderscore c = c := by
      intro c hc
      have hcw := hword c hc
      have hne : c ≠ ' ' := by
        intro h
        subst h
        exact absurd hcw (by decide)
      simp [spaceToUnderscore, hne]
    calc l.map spaceToUnderscore = l.map id := List.map_congr_left hcc
    _ = l := List.map_id l
  have h3 : l.filter isWordChar = l := List.filter_eq_self.mpr hword
  show String.mk (((pyStrip l).map spaceToUnderscore).filter isWordChar) = String.mk l
  rw [h1, h2, h3]

/-- The loader reads each configured field with GetFieldAsString; a null field
has the empty string form, and the source tests truthiness of the string
before concatenating it, so null and empty are both hashed as the empty
string. -/
def fieldText (v : Option String) : String := v.getD ""

/-- A value whose string form is empty is stored as a SQL null: the source
appends None to the insert row when the truthiness test fails. -/
def storedValue (v : Option String) : Option String :=
  if fieldText v = "" then none else v

/-- attribute_text accumulated by the feature loop of
load_data_and_compute_hash: the compared field values concatenated in
configuration order (the loop folds string append over them). -/
def attributeText (attrValues : List (Option String)) : String :=
  String.join (attrValues.map fieldText)

/-- One row of a snapshot table, without the synthetic auto-increment id. -/
structure SnapshotRow where
  src_pkey : Int
  refValues : List (Option String)
  attrValues : List (Option String)
  geometry_wkt : String
  attribute_hash : String
  geometry_hash : String
  full_hash : String
deriving DecidableEq

/-- One iteration of the feature loop of load_data_and_compute_hash: build the
insert row for a feature from its source primary key (GetFID), its reference
and compared field values and its reprojected geometry wkt, computing the
three digests. H models the sha256 hex digest. -/
def loadRow (H : String → String) (pk : Int) (refs attrs : List (Option String))
    (wkt : String) : SnapshotRow :=
  { src_pkey := pk
    refValues := refs.map storedValue
    attrValues := attrs.map storedValue
    geometry_wkt := wkt
    attribute_hash := H (attributeText attrs)
    geometry_hash := H wkt
    full_hash := H (attributeText attrs ++ wkt) }

theorem foldl_append_acc (l : List String) : ∀ a : String,
    l.foldl (· ++ ·) a = a ++ l.foldl (· ++ ·) "" := by
  induction l with
  | nil => intro a; simp [List.foldl_nil]
  | cons h t ih =>
      intro a
      simp only [List.foldl_cons]
      rw [ih (a ++ h), ih ("" ++ h), String.empty_append, String.append_assoc]

theorem join_append_str (l1 l2 : List String) :
    String.join (l1 ++ l2) = String.join l1 ++ String.join l2 := by
  induction l1 with
  | nil => simp [String.join]
  | cons h t ih =>
      show String.join (h :: (t ++ l2)) = String.join (h :: t) ++ String.join l2
      unfold String.join
      simp only [List.foldl_cons, String.empty_append]
      rw [foldl_append_acc (t ++ l2) h, foldl_append_acc t h]
      have : (t ++ l2).foldl (· ++ ·) ""
          = t.foldl (· ++ ·) "" ++ l2.foldl (· ++ ·) "" := ih
      rw [this, String.append_assoc]

theorem attributeText_append (xs ys : List (Option String)) :
    attributeText (xs ++ ys) = attributeText xs ++ attributeText ys := by
  unfold attributeText
  rw [List.map_append, join_append_str]

theorem attributeText_single (v : Option String) :
    attributeText [v] = fieldText v := by
  unfold attributeText
  show String.join [fieldText v] = fieldText v
  unfold String.join
  simp only [List.foldl_cons, List.foldl_nil, String.empty_append]

theorem attributeText_split (pre post : List (Option String)) (v : Option String) :
    attributeText (pre ++ v :: post)
      = attributeText pre ++ (fieldText v ++ attributeText post) := by
  have h : pre ++ v :: post = pre ++ ([v] ++ post) := by simp
  rw [h, attributeText_append, attributeText_append, attributeText_single]

theorem append_middle_ne {a c x y : String} (hxy : x ≠ y) :
    a ++ (x ++ c) ≠ a ++ (y ++ c) := by
  intro h
  apply hxy
  have hd := congrArg String.data h
  simp only [String.data_append] at hd
  have h1 := List.append_cancel_left hd
  have h2 := List.append_cancel_right h1
  exact String.ext h2

/-- C9: every loaded row satisfies attribute_hash = H(concatenation of the
compared field values, null treated as empty string), geometry_hash =
H(geometry wkt) and full_hash = H(concatenation followed by the wkt);
recomputing from identical field values and geometry yields identical digests,
and changing any one compared field value (to one with a different effective
text) changes attribute_hash and full_hash but not geometry_hash. -/
theorem load_hash_invariants (H : String → String) (hinj : Function.Injective H)
    (pk pk2 : Int) (refs refs2 pre post : List (Option String))
    (v w : Option String) (wkt : String)
    (hvw : fieldText v ≠ fieldText w) :
    ((loadRow H pk refs (pre ++ v :: post) wkt).attribute_hash
        = H (attributeText (pre ++ v :: post))
      ∧ (loadRow H pk refs (pre ++ v :: post) wkt).geometry_hash = H wkt
      ∧ (loadRow H pk refs (pre ++ v :: post) wkt).full_hash
        = H (attributeText (pre ++ v :: post) ++ wkt))
    ∧ ((loadRow H pk refs (pre ++ v :: post) wkt).attribute_hash
        = (loadRow H pk2 refs2 (pre ++ v :: post) wkt).attribute_hash
      ∧ (loadRow H pk refs (pre ++ v :: post) wkt).geometry_hash
        = (loadRow H pk2 refs2 (pre ++ v :: post) wkt).geometry_hash
      ∧ (loadRow H pk refs (pre ++ v :: post) wkt).full_hash
        = (loadRow H pk2 refs2 (pre ++ v :: post) wkt).full_hash)
    ∧ ((loadRow H pk refs (pre ++ v :: post) wkt).attribute_hash
        ≠ (loadRow H pk refs (pre ++ w :: post) wkt).attribute_hash
      ∧ (loadRow H pk refs (pre ++ v :: post) wkt).full_hash
        ≠ (loadRow H pk refs (pre ++ w :: post) wkt).full_hash
      ∧ (loadRow H pk refs (pre ++ v :: post) wkt).geometry_hash
        = (loadRow H pk refs (pre ++ w :: post) wkt).geometry_hash) := by
  have htext : attributeText (pre ++ v :: post) ≠ attributeText (pre ++ w :: post) := by
    rw [attributeText_split, attributeText_split]
    exact append_middle_ne hvw
  refine ⟨⟨rfl, rfl, rfl⟩, ⟨rfl, rfl, rfl⟩, ?_, ?_, rfl⟩
  · intro h
    exact htext (hinj h)
  · intro h
    have hfull : attributeText (pre ++ v :: post) ++ wkt
        ≠ attributeText (pre ++ w :: post) ++ wkt := by
      rw [attributeText_split, attributeText_split]
      simp only [String.append_assoc]
      exact append_middle_ne hvw
    exact hfull (hinj h)

/-- Witness for load_hash_invariants at concrete inputs. -/
theorem load_hash_invariants_witness :
    (loadRow id 1 [] [some "x"] "G").attribute_hash
      ≠ (loadRow id 1 [] [some "y"] "G").attribute_hash := by
  have h := load_hash_invariants id (fun a b hab => hab) 1 2 [] [] [] []
    (some "x") (some "y") "G" (by decide)
  simpa using h.2.2.1

/-- The change-type tags of utils.ChangeType: feature-removed, feature-added
and attribute-update. -/
inductive ChangeType where
  | removed
  | added
  | attributeUpdate
deriving DecidableEq

/-- All field columns of a snapshot row in table order: reference fields
followed by compared fields. -/
def allFieldValues (r : SnapshotRow) : List (Option String) :=
  r.refValues ++ r.attrValues

/-- One row of a change summary table. The two source-primary-key columns of
the schema are never populated by the insert queries and are omitted here; a
field-column group left entirely NULL by an insert is modelled as none. -/
structure ChangeRow where
  change_type : ChangeType
  oldFieldValues : Option (List (Option String))
  newFieldValues : Option (List (Option String))
  geometry_wkt : String
deriving DecidableEq

def geomHashes (t : List SnapshotRow) : List String :=
  t.map (fun r => r.geometry_hash)

/-- The NOT IN subquery test of the first two insert queries: whether the
row's geometry_hash occurs in the other table. -/
def matchedBy (r : SnapshotRow) (other : List SnapshotRow) : Bool :=
  (geomHashes other).contains r.geometry_hash

def mkRemovedRow (a : SnapshotRow) : ChangeRow :=
  ⟨ChangeType.removed, some (allFieldValues a), none, a.geometry_wkt⟩

def mkAddedRow (b : SnapshotRow) : ChangeRow :=
  ⟨ChangeType.added, none, some (allFieldValues b), b.geometry_wkt⟩

/-- Row inserted by the attribute-difference query. Faithful to the source:
alias a ranges over the NEW table and alias b over the OLD table, and the
query lists the a values for the columns suffixed with the old date and the
b values for the columns suffixed with the new date. -/
def mkAttributeUpdateRow (a b : SnapshotRow) : ChangeRow :=
  ⟨ChangeType.attributeUpdate, some (allFieldValues a), some (allFieldValues b),
    a.geometry_wkt⟩

/-- First insert query: old rows whose geometry_hash has no counterpart in the
new table, tagged feature-removed. -/
def removedRows (oldT newT : List SnapshotRow) : List ChangeRow :=
  (oldT.filter (fun a => !(matchedBy a newT))).map mkRemovedRow

/-- Second insert query: new rows whose geometry_hash has no counterpart in
the old table, tagged feature-added. -/
def addedRows (oldT newT : List SnapshotRow) : List ChangeRow :=
  (newT.filter (fun b => !(matchedBy b oldT))).map mkAddedRow

/-- Third insert query: the join of the new table (alias a) with the old table
(alias b) on geometry_hash, keeping pairs whose attribute_hash differs. -/
def attributeUpdateRows (oldT newT : List SnapshotRow) : List ChangeRow :=
  newT.flatMap (fun a =>
    (oldT.filter (fun b =>
        a.geometry_hash == b.geometry_hash
          && !(a.attribute_hash == b.attribute_hash))).map
      (mkAttributeUpdateRow a))

/-- The rows of the change summary table produced by
create_and_populate_change_table, in insert order. -/
def changeTableRows (oldT newT : List SnapshotRow) : List ChangeRow :=
  removedRows oldT newT ++ addedRows oldT newT ++ attributeUpdateRows oldT newT

/-- C1: evaluated at a feature whose geometry is unchanged and whose one
compared field changed from x (old snapshot) to z (new snapshot), the single
attribute-modified diff row carries the new value z in the old-suffixed column
group and the old value x in the new-suffixed column group: the insert query
swaps the two column groups, so the claimed correspondence fails on this
input. -/
theorem change_row_old_new_columns_swapped :
    changeTableRows [loadRow id 1 [] [some "x"] "G1"] [loadRow id 7 [] [some "z"] "G1"]
      = [⟨ChangeType.attributeUpdate, some [some "z"], some [some "x"], "G1"⟩] := by
  decide

/-- A snapshot row is well formed when its stored digests are those the loader
computes from its stored compared values and geometry wkt. -/
def WellFormedRow (H : String → String) (r : SnapshotRow) : Prop :=
  r.attribute_hash = H (attributeText r.attrValues)
    ∧ r.geometry_hash = H r.geometry_wkt
    ∧ r.full_hash = H (attributeText r.attrValues ++ r.geometry_wkt)

instance (H : String → String) (r : SnapshotRow) : Decidable (WellFormedRow H r) := by
  unfold WellFormedRow
  infer_instance

theorem wkt_eq_of_geom_hash_eq {H : String → String} (hinj : Function.Injective H)
    {x y : SnapshotRow} (hx : WellFormedRow H x) (hy : WellFormedRow H y)
    (h : x.geometry_hash = y.geometry_hash) : x.geometry_wkt = y.geometry_wkt := by
  apply hinj
  rw [← hx.2.1, ← hy.2.1]
  exact h

theorem mkRemovedRow_inj {x y : SnapshotRow} (h : mkRemovedRow x = mkRemovedRow y) :
    allFieldValues x = allFieldValues y ∧ x.geometry_wkt = y.geometry_wkt := by
  have h1 : (mkRemovedRow x).oldFieldValues = (mkRemovedRow y).oldFieldValues := by rw [h]
  have h2 : (mkRemovedRow x).geometry_wkt = (mkRemovedRow y).geometry_wkt := by rw [h]
  exact ⟨Option.some.inj h1, h2⟩

theorem mkAddedRow_inj {x y : SnapshotRow} (h : mkAddedRow x = mkAddedRow y) :
    allFieldValues x = allFieldValues y ∧ x.geometry_wkt = y.geometry_wkt := by
  have h1 : (mkAddedRow x).newFieldValues = (mkAddedRow y).newFieldValues := by rw [h]
  have h2 : (mkAddedRow x).geometry_wkt = (mkAddedRow y).geometry_wkt := by rw [h]
  exact ⟨Option.some.inj h1, h2⟩

theorem mkAttributeUpdateRow_inj {a1 b1 a2 b2 : SnapshotRow}
    (h : mkAttributeUpdateRow a1 b1 = mkAttributeUpdateRow a2 b2) :
    allFieldValues a1 = allFieldValues a2 ∧ allFieldValues b1 = allFieldValues b2
      ∧ a1.geometry_wkt = a2.geometry_wkt := by
  have h1 : (mkAttributeUpdateRow a1 b1).oldFieldValues
      = (mkAttributeUpdateRow a2 b2).oldFieldValues := by rw [h]
  have h2 : (mkAttributeUpdateRow a1 b1).newFieldValues
      = (mkAttributeUpdateRow a2 b2).newFieldValues := by rw [h]
  have h3 : (mkAttributeUpdateRow a1 b1).geometry_wkt
      = (mkAttributeUpdateRow a2 b2).geometry_wkt := by rw [h]
  exact ⟨Option.some.inj h1, Option.some.inj h2, h3⟩

theorem mem_removedRows {oldT newT : List SnapshotRow} {r : ChangeRow} :
    r ∈ removedRows oldT newT
      ↔ ∃ a, a ∈ oldT ∧ matchedBy a newT = false ∧ r = mkRemovedRow a := by
  constructor
  · intro h
    rcases List.mem_map.mp h with ⟨a, ha, heq⟩
    rcases List.mem_filter.mp ha with ⟨hmem, hb⟩
    refine ⟨a, hmem, ?_, heq.symm⟩
    cases hm : matchedBy a newT
    · rfl
    · rw [hm] at hb
      exact absurd hb (by decide)
  · rintro ⟨a, hmem, hm, rfl⟩
    exact List.mem_map.mpr ⟨a, List.mem_filter.mpr ⟨hmem, by rw [hm]; rfl⟩, rfl⟩

theorem mem_addedRows {oldT newT : List SnapshotRow} {r : ChangeRow} :
    r ∈ addedRows oldT newT
      ↔ ∃ b, b ∈ newT ∧ matchedBy b oldT = false ∧ r = mkAddedRow b := by
  constructor
  · intro h
    rcases List.mem_map.mp h with ⟨b, hb, heq⟩
    rcases List.mem_filter.mp hb with ⟨hmem, hc⟩
    refine ⟨b, hmem, ?_, heq.symm⟩
    cases hm : matchedBy b oldT
    · rfl
    · rw [hm] at hc
      exact absurd hc (by decide)
  · rintro ⟨b, hmem, hm, rfl⟩
    exact List.mem_map.mpr ⟨b, List.mem_filter.mpr ⟨hmem, by rw [hm]; rfl⟩, rfl⟩

theorem mem_attributeUpdateRows {oldT newT : List SnapshotRow} {r : ChangeRow} :
    r ∈ attributeUpdateRows oldT newT
      ↔ ∃ a b, a ∈ newT ∧ b ∈ oldT ∧ a.geometry_hash = b.geometry_hash
          ∧ a.attribute_hash ≠ b.attribute_hash ∧ r = mkAttributeUpdateRow a b := by
  unfold attributeUpdateRows
  rw [List.mem_flatMap]
  constructor
  · rintro ⟨a, ha, hr⟩
    rcases List.mem_map.mp hr with ⟨b, hb, heq⟩
    rcases List.mem_filter.mp hb with ⟨hmem, hcond⟩
    rw [Bool.and_eq_true] at hcond
    refine ⟨a, b, ha, hmem, ?_, ?_, heq.symm⟩
    · exact beq_iff_eq.mp hcond.1
    · intro hx
      rw [Bool.not_eq_eq_eq_not] at hcond
      have := hcond.2
      rw [beq_iff_eq.mpr hx] at this
      exact absurd this (by decide)
  · rintro ⟨a, b, ha, hb, hg, hne, rfl⟩
    refine ⟨a, ha, List.mem_map.mpr ⟨b, List.mem_filter.mpr ⟨hb, ?_⟩, rfl⟩⟩
    rw [Bool.and_eq_true]
    constructor
    · exact beq_iff_eq.mpr hg
    · cases hc : (a.attribute_hash == b.attribute_hash)
      · rfl
      · exact absurd (beq_iff_eq.mp hc) hne

theorem change_type_mem_removedRows {oldT newT : List SnapshotRow} {r : ChangeRow}
    (h : r ∈ removedRows oldT newT) : r.change_type = ChangeType.removed := by
  rcases mem_removedRows.mp h with ⟨a, _, _, rfl⟩
  rfl

theorem change_type_mem_addedRows {oldT newT : List SnapshotRow} {r : ChangeRow}
    (h : r ∈ addedRows oldT newT) : r.change_type = ChangeType.added := by
  rcases mem_addedRows.mp h with ⟨b, _, _, rfl⟩
  rfl

theorem change_type_mem_attributeUpdateRows {oldT newT : List SnapshotRow} {r : ChangeRow}
    (h : r ∈ attributeUpdateRows oldT newT) :
    r.change_type = ChangeType.attributeUpdate := by
  rcases mem_attributeUpdateRows.mp h with ⟨a, b, _, _, _, _, rfl⟩
  rfl

theorem count_eq_zero_of_change_type {r : ChangeRow} {l : List ChangeRow}
    (h : ∀ x ∈ l, x.change_type ≠ r.change_type) : l.count r = 0 := by
  rw [List.count_eq_zero]
  intro hr
  exact h r hr rfl

theorem count_map_eq_count {α β : Type} [DecidableEq α] [DecidableEq β]
    (f : α → β) (l : List α) (a : α)
    (hinj : ∀ x ∈ l, f x = f a → x = a) : (l.map f).count (f a) = l.count a := by
  induction l with
  | nil => rfl
  | cons x t ih =>
      simp only [List.map_cons, List.count_cons]
      rw [ih (fun y hy h => hinj y (List.mem_cons_of_mem x hy) h)]
      congr 1
      by_cases hx : x = a
      · subst hx; simp
      · have hfx : ¬ f x = f a := fun h => hx (hinj x (List.mem_cons_self x t) h)
        simp [hx, hfx]

theorem sum_map_ite_eq_count {α : Type} [DecidableEq α] (l : List α) (a : α) :
    (l.map (fun x => if x = a then 1 else 0)).sum = l.count a := by
  induction l with
  | nil => rfl
  | cons x t ih =>
      simp only [List.map_cons, List.sum_cons, List.count_cons, ih, beq_iff_eq]
      by_cases hx : x = a
      · simp [hx]
        omega
      · simp [hx]

theorem matchedBy_true_iff {r : SnapshotRow} {t : List SnapshotRow} :
    matchedBy r t = true ↔ ∃ x, x ∈ t ∧ x.geometry_hash = r.geometry_hash := by
  constructor
  · intro h
    have hm : r.geometry_hash ∈ geomHashes t := List.elem_iff.mp h
    rcases List.mem_map.mp hm with ⟨x, hx, he⟩
    exact ⟨x, hx, he⟩
  · rintro ⟨x, hx, he⟩
    exact List.elem_iff.mpr (List.mem_map.mpr ⟨x, hx, he⟩)

/-- C4: for every pair of well formed, duplicate free old and new snapshot
tables, every old row is classified as exactly one of matched-by-new or
removed, every new row as exactly one of matched-by-old or added, every
matched pair with differing attribute_hash appears exactly once as an
attribute-modified row, and unchanged features never appear in the change
table. -/
theorem diff_completeness (H : String → String) (hinj : Function.Injective H)
    (oldT newT : List SnapshotRow)
    (hwo : ∀ r ∈ oldT, WellFormedRow H r) (hwn : ∀ r ∈ newT, WellFormedRow H r)
    (hno : oldT.Nodup) (hnn : newT.Nodup)
    (hco : ∀ x ∈ oldT, ∀ y ∈ oldT,
      allFieldValues x = allFieldValues y → x.geometry_wkt = y.geometry_wkt → x = y)
    (hcn : ∀ x ∈ newT, ∀ y ∈ newT,
      allFieldValues x = allFieldValues y → x.geometry_wkt = y.geometry_wkt → x = y) :
    (∀ a ∈ oldT,
        (matchedBy a newT = true ∧ mkRemovedRow a ∉ changeTableRows oldT newT)
      ∨ (matchedBy a newT = false
          ∧ (changeTableRows oldT newT).count (mkRemovedRow a) = 1))
  ∧ (∀ b ∈ newT,
        (matchedBy b oldT = true ∧ mkAddedRow b ∉ changeTableRows oldT newT)
      ∨ (matchedBy b oldT = false
          ∧ (changeTableRows oldT newT).count (mkAddedRow b) = 1))
  ∧ (∀ a ∈ newT, ∀ b ∈ oldT, a.geometry_hash = b.geometry_hash →
        a.attribute_hash ≠ b.attribute_hash →
        (changeTableRows oldT newT).count (mkAttributeUpdateRow a b) = 1)
  ∧ (∀ a ∈ newT, ∀ b ∈ oldT, a.geometry_hash = b.geometry_hash →
        a.attribute_hash = b.attribute_hash →
        mkAttributeUpdateRow a b ∉ changeTableRows oldT newT
          ∧ mkAddedRow a ∉ changeTableRows oldT newT
          ∧ mkRemovedRow b ∉ changeTableRows oldT newT) := by
  have hcount : ∀ r : ChangeRow,
      (changeTableRows oldT newT).count r
        = (removedRows oldT newT).count r + (addedRows oldT newT).count r
          + (attributeUpdateRows oldT newT).count r := by
    intro r
    unfold changeTableRows
    rw [List.count_append, List.count_append]
  have hmemsplit : ∀ r : ChangeRow, r ∈ changeTableRows oldT newT →
      r ∈ removedRows oldT newT ∨ r ∈ addedRows oldT newT
        ∨ r ∈ attributeUpdateRows oldT newT := by
    intro r hr
    unfold changeTableRows at hr
    rcases List.mem_append.mp hr with h | h
    · rcases List.mem_append.mp h with h2 | h2
      · exact Or.inl h2
      · exact Or.inr (Or.inl h2)
    · exact Or.inr (Or.inr h)
  refine ⟨?_, ?_, ?_, ?_⟩
  · -- every old row: matched (and absent) or removed exactly once
    intro a ha
    cases hm : matchedBy a newT
    · right
      refine ⟨rfl, ?_⟩
      rw [hcount]
      have hrem : (removedRows oldT newT).count (mkRemovedRow a) = 1 := by
        unfold removedRows
        rw [count_map_eq_count mkRemovedRow _ a ?hinjm]
        case hinjm =>
          intro x hx he
          rcases List.mem_filter.mp hx with ⟨hxm, _⟩
          rcases mkRemovedRow_inj he with ⟨hf, hw⟩
          exact hco x hxm a ha hf hw
        have hpa : (!(matchedBy a newT)) = true := by rw [hm]; rfl
        rw [List.count_filter (p := fun z => !(matchedBy z newT)) hpa]
        exact List.count_eq_one_of_mem hno ha
      have hadd : (addedRows oldT newT).count (mkRemovedRow a) = 0 := by
        apply count_eq_zero_of_change_type
        intro x hx
        rw [change_type_mem_addedRows hx]
        intro hc
        cases hc
      have hatt : (attributeUpdateRows oldT newT).count (mkRemovedRow a) = 0 := by
        apply count_eq_zero_of_change_type
        intro x hx
        rw [change_type_mem_attributeUpdateRows hx]
        intro hc
        cases hc
      omega
    · left
      refine ⟨rfl, ?_⟩
      intro hmem
      rcases hmemsplit _ hmem with h | h | h
      · rcases mem_removedRows.mp h with ⟨x, hx, hxm, he⟩
        rcases mkRemovedRow_inj he with ⟨hf, hw⟩
        have hxa : a = x := hco a ha x hx hf hw
        rw [← hxa] at hxm
        rw [hm] at hxm
        cases hxm
      · have hct := change_type_mem_addedRows h
        simp [mkRemovedRow] at hct
      · have hct := change_type_mem_attributeUpdateRows h
        simp [mkRemovedRow] at hct
  · -- every new row: matched (and absent) or added exactly once
    intro b hb
    cases hm : matchedBy b oldT
    · right
      refine ⟨rfl, ?_⟩
      rw [hcount]
      have hadd : (addedRows oldT newT).count (mkAddedRow b) = 1 := by
        unfold addedRows
        rw [count_map_eq_count mkAddedRow _ b ?hinjb]
        case hinjb =>
          intro x hx he
          rcases List.mem_filter.mp hx with ⟨hxm, _⟩
          rcases mkAddedRow_inj he with ⟨hf, hw⟩
          exact hcn x hxm b hb hf hw
        have hpb : (!(matchedBy b oldT)) = true := by rw [hm]; rfl
        rw [List.count_filter (p := fun z => !(matchedBy z oldT)) hpb]
        exact List.count_eq_one_of_mem hnn hb
      have hrem : (removedRows oldT newT).count (mkAddedRow b) = 0 := by
        apply count_eq_zero_of_change_type
        intro x hx
        rw [change_type_mem_removedRows hx]
        intro hc
        cases hc
      have hatt : (attributeUpdateRows oldT newT).count (mkAddedRow b) = 0 := by
        apply count_eq_zero_of_change_type
        intro x hx
        rw [change_type_mem_attributeUpdateRows hx]
        intro hc
        cases hc
      omega
    · left
      refine ⟨rfl, ?_⟩
      intro hmem
      rcases hmemsplit _ hmem with h | h | h
      · have hct := change_type_mem_removedRows h
        simp [mkAddedRow] at hct
      · rcases mem_addedRows.mp h with ⟨x, hx, hxm, he⟩
        rcases mkAddedRow_inj he with ⟨hf, hw⟩
        have hxb : b = x := hcn b hb x hx hf hw
        rw [← hxb] at hxm
        rw [hm] at hxm
        cases hxm
      · have hct := change_type_mem_attributeUpdateRows h
        simp [mkAddedRow] at hct
  · -- every differing matched pair appears exactly once
    intro a ha b hb hg hne
    rw [hcount]
    have hrem : (removedRows oldT newT).count (mkAttributeUpdateRow a b) = 0 := by
      apply count_eq_zero_of_change_type
      intro x hx
      rw [change_type_mem_removedRows hx]
      intro hc
      cases hc
    have hadd : (addedRows oldT newT).count (mkAttributeUpdateRow a b) = 0 := by
      apply count_eq_zero_of_change_type
      intro x hx
      rw [change_type_mem_addedRows hx]
      intro hc
      cases hc
    have hatt :
        (attributeUpdateRows oldT newT).count (mkAttributeUpdateRow a b) = 1 := by
      unfold attributeUpdateRows
      rw [List.count_flatMap]
      have hmap : (newT.map
            (List.count (mkAttributeUpdateRow a b) ∘ fun x =>
              (oldT.filter (fun y => x.geometry_hash == y.geometry_hash
                  && !(x.attribute_hash == y.attribute_hash))).map
                (mkAttributeUpdateRow x)))
          = newT.map (fun x => if x = a then 1 else 0) := by
        apply List.map_congr_left
        intro x hx
        simp only [Function.comp]
        by_cases hxa : x = a
        · subst hxa
          rw [if_pos rfl]
          rw [count_map_eq_count (mkAttributeUpdateRow x) _ b ?hinjab]
          case hinjab =>
            intro y hy he
            rcases List.mem_filter.mp hy with ⟨hym, hyc⟩
            rcases mkAttributeUpdateRow_inj he with ⟨_, hf, _⟩
            rw [Bool.and_eq_true] at hyc
            have hgy : x.geometry_hash = y.geometry_hash := beq_iff_eq.mp hyc.1
            have hyw : y.geometry_wkt = x.geometry_wkt :=
              wkt_eq_of_geom_hash_eq hinj (hwo y hym) (hwn x hx) hgy.symm
            have hbw : b.geometry_wkt = x.geometry_wkt :=
              wkt_eq_of_geom_hash_eq hinj (hwo b hb) (hwn x hx) hg.symm
            exact hco y hym b hb hf (by rw [hyw, hbw])
          have hq : (x.geometry_hash == b.geometry_hash
              && !(x.attribute_hash == b.attribute_hash)) = true := by
            rw [Bool.and_eq_true]
            refine ⟨beq_iff_eq.mpr hg, ?_⟩
            cases hc : (x.attribute_hash == b.attribute_hash)
            · rfl
            · exact absurd (beq_iff_eq.mp hc) hne
          rw [List.count_filter (p := fun y : SnapshotRow =>
            x.geometry_hash == y.geometry_hash
              && !(x.attribute_hash == y.attribute_hash)) hq]
          exact List.count_eq_one_of_mem hno hb
        · rw [if_neg hxa]
          rw [List.count_eq_zero]
          intro hmem
          rcases List.mem_map.mp hmem with ⟨y, hy, he⟩
          rcases mkAttributeUpdateRow_inj he with ⟨hf, _, hw⟩
          exact hxa (hcn x hx a ha hf hw)
      rw [hmap, sum_map_ite_eq_count]
      exact List.count_eq_one_of_mem hnn ha
    omega
  · -- unchanged matched pairs never appear
    intro a ha b hb hg heq
    have hmatchA : matchedBy a oldT = true := matchedBy_true_iff.mpr ⟨b, hb, hg.symm⟩
    have hmatchB : matchedBy b newT = true := matchedBy_true_iff.mpr ⟨a, ha, hg⟩
    refine ⟨?_, ?_, ?_⟩
    · intro hmem
      rcases hmemsplit _ hmem with h | h | h
      · have hct := change_type_mem_removedRows h
        simp [mkAttributeUpdateRow] at hct
      · have hct := change_type_mem_addedRows h
        simp [mkAttributeUpdateRow] at hct
      · rcases mem_attributeUpdateRows.mp h with ⟨x, y, hx, hy, hgxy, hnexy, he⟩
        rcases mkAttributeUpdateRow_inj he with ⟨hfa, hfb, hwa⟩
        have hxa : a = x := hcn a ha x hx hfa hwa
        subst hxa
        have hyw : y.geometry_wkt = a.geometry_wkt :=
          wkt_eq_of_geom_hash_eq hinj (hwo y hy) (hwn a ha) hgxy.symm
        have hbw : b.geometry_wkt = a.geometry_wkt :=
          wkt_eq_of_geom_hash_eq hinj (hwo b hb) (hwn a ha) hg.symm
        have hyb : b = y := hco b hb y hy hfb (by rw [hyw, hbw])
        rw [← hyb] at hnexy
        exact hnexy heq
    · intro hmem
      rcases hmemsplit _ hmem with h | h | h
      · have hct := change_type_mem_removedRows h
        simp [mkAddedRow] at hct
      · rcases mem_addedRows.mp h with ⟨x, hx, hxm, he⟩
        rcases mkAddedRow_inj he with ⟨hf, hw⟩
        have hxa : a = x := hcn a ha x hx hf hw
        rw [← hxa] at hxm
        rw [hmatchA] at hxm
        cases hxm
      · have hct := change_type_mem_attributeUpdateRows h
        simp [mkAddedRow] at hct
    · intro hmem
      rcases hmemsplit _ hmem with h | h | h
      · rcases mem_removedRows.mp h with ⟨x, hx, hxm, he⟩
        rcases mkRemovedRow_inj he with ⟨hf, hw⟩
        have hxb : b = x := hco b hb x hx hf hw
        rw [← hxb] at hxm
        rw [hmatchB] at hxm
        cases hxm
      · have hct := change_type_mem_addedRows h
        simp [mkRemovedRow] at hct
      · have hct := change_type_mem_attributeUpdateRows h
        simp [mkRemovedRow] at hct

/-- Witness for diff_completeness at the concrete scenario of sec. 8 of the
spec: old = A(x, G1), B(y, G2); new = A(z, G1), C(w, G3). -/
theorem diff_completeness_witness :
    (changeTableRows
        [loadRow id 1 [] [some "x"] "G1", loadRow id 2 [] [some "y"] "G2"]
        [loadRow id 1 [] [some "z"] "G1", loadRow id 3 [] [some "w"] "G3"]).count
      (mkAttributeUpdateRow (loadRow id 1 [] [some "z"] "G1")
        (loadRow id 1 [] [some "x"] "G1")) = 1 := by
  have h := diff_completeness id (fun p q hpq => hpq)
    [loadRow id 1 [] [some "x"] "G1", loadRow id 2 [] [some "y"] "G2"]
    [loadRow id 1 [] [some "z"] "G1", loadRow id 3 [] [some "w"] "G3"]
    (by decide) (by decide) (by decide) (by decide) (by decide) (by decide)
  exact h.2.2.1 (loadRow id 1 [] [some "z"] "G1") (by decide)
    (loadRow id 1 [] [some "x"] "G1") (by decide) (by decide) (by decide)

theorem mem_changeTableRows {oldT newT : List SnapshotRow} {r : ChangeRow} :
    r ∈ changeTableRows oldT newT
      ↔ r ∈ removedRows oldT newT ∨ r ∈ addedRows oldT newT
          ∨ r ∈ attributeUpdateRows oldT newT := by
  unfold changeTableRows
  simp [List.mem_append, or_assoc]

theorem matchedBy_dedup (x : SnapshotRow) (t : List SnapshotRow) :
    matchedBy x t.dedup = matchedBy x t := by
  rw [Bool.eq_iff_iff, matchedBy_true_iff, matchedBy_true_iff]
  constructor
  · rintro ⟨y, hy, he⟩
    exact ⟨y, List.mem_dedup.mp hy, he⟩
  · rintro ⟨y, hy, he⟩
    exact ⟨y, List.mem_dedup.mpr hy, he⟩

/-- C7 (amended): removing exact duplicate rows from either snapshot table
leaves the set of change rows computed by the diff unchanged (only
multiplicities can differ), and the diff is a total function of the two
tables, so duplicates are never an error. -/
theorem dedup_preserves_change_rows (oldT newT : List SnapshotRow) (r : ChangeRow) :
    r ∈ changeTableRows oldT.dedup newT.dedup ↔ r ∈ changeTableRows oldT newT := by
  rw [mem_changeTableRows, mem_changeTableRows]
  apply or_congr
  · rw [mem_removedRows, mem_removedRows]
    constructor
    · rintro ⟨a, ha, hm, rfl⟩
      refine ⟨a, List.mem_dedup.mp ha, ?_, rfl⟩
      rw [← matchedBy_dedup]
      exact hm
    · rintro ⟨a, ha, hm, rfl⟩
      refine ⟨a, List.mem_dedup.mpr ha, ?_, rfl⟩
      rw [matchedBy_dedup]
      exact hm
  apply or_congr
  · rw [mem_addedRows, mem_addedRows]
    constructor
    · rintro ⟨b, hb, hm, rfl⟩
      refine ⟨b, List.mem_dedup.mp hb, ?_, rfl⟩
      rw [← matchedBy_dedup]
      exact hm
    · rintro ⟨b, hb, hm, rfl⟩
      refine ⟨b, List.mem_dedup.mpr hb, ?_, rfl⟩
      rw [matchedBy_dedup]
      exact hm
  · rw [mem_attributeUpdateRows, mem_attributeUpdateRows]
    constructor
    · rintro ⟨a, b, ha, hb, hg, hne, rfl⟩
      exact ⟨a, b, List.mem_dedup.mp ha, List.mem_dedup.mp hb, hg, hne, rfl⟩
    · rintro ⟨a, b, ha, hb, hg, hne, rfl⟩
      exact ⟨a, b, List.mem_dedup.mpr ha, List.mem_dedup.mpr hb, hg, hne, rfl⟩

/-- C7: counterexample. Two old rows share full_hash (duplicates in the sense
of the claim) but differ in a reference field; the diff computed with both
rows present contains a removed row that the diff of the deduplicated table
does not, so the two diffs are not equal. -/
theorem duplicates_affect_change_rows :
    (loadRow id 1 [some "refA"] [some "x"] "G").full_hash
        = (loadRow id 2 [some "refB"] [some "x"] "G").full_hash
      ∧ mkRemovedRow (loadRow id 2 [some "refB"] [some "x"] "G")
          ∈ changeTableRows
            [loadRow id 1 [some "refA"] [some "x"] "G",
              loadRow id 2 [some "refB"] [some "x"] "G"] []
      ∧ mkRemovedRow (loadRow id 2 [some "refB"] [some "x"] "G")
          ∉ changeTableRows [loadRow id 1 [some "refA"] [some "x"] "G"] [] := by
  decide

/-- The distinct full_hash values of a table: the groups of the GROUP BY
query of find_duplicate_features. -/
def fullHashKeys (t : List SnapshotRow) : List String :=
  (t.map (fun r => r.full_hash)).dedup

/-- The rows of the group with the given full_hash. -/
def groupMembers (t : List SnapshotRow) (h : String) : List SnapshotRow :=
  t.filter (fun r => r.full_hash == h)

/-- find_duplicate_features: the GROUP BY full_hash HAVING COUNT greater than
one query selects the bare source_primary_key column, which yields a single
representative row per group (which member the engine picks is unspecified;
the first member in table order is used here); the script stringifies each
selected key and collects them into a set. -/
def find_duplicate_features (t : List SnapshotRow) : Finset String :=
  ((fullHashKeys t).filterMap (fun h =>
      if 1 < (groupMembers t h).length then
        ((groupMembers t h).head?).map (fun r => toString r.src_pkey)
      else none)).toFinset

/-- C2: counterexample. For a table with exactly two rows sharing identical
attributes and geometry (hence identical full_hash), the returned set has
size one, not two: the query returns one representative key per duplicate
group, not every member's key. -/
theorem find_duplicates_single_representative :
    (find_duplicate_features
        [loadRow id 1 [] [some "x"] "G", loadRow id 2 [] [some "x"] "G"]).card
      = 1 := by
  decide

/-- C2 (amended): the duplicate detector returns one stringified source
primary key per full_hash group with more than one member: every returned key
is the key of some member of a duplicated group, every duplicated group
contributes the key of one of its members, and a table of exactly two rows
sharing a full_hash yields a set of size one. -/
theorem find_duplicate_features_representatives (t : List SnapshotRow) :
    (∀ s ∈ find_duplicate_features t,
        ∃ r, r ∈ t ∧ toString r.src_pkey = s
          ∧ 1 < (groupMembers t r.full_hash).length)
  ∧ (∀ r ∈ t, 1 < (groupMembers t r.full_hash).length →
        ∃ q, q ∈ t ∧ q.full_hash = r.full_hash
          ∧ toString q.src_pkey ∈ find_duplicate_features t)
  ∧ (∀ r1 r2 : SnapshotRow, r1.full_hash = r2.full_hash →
        (find_duplicate_features [r1, r2]).card = 1) := by
  refine ⟨?_, ?_, ?_⟩
  · intro s hs
    rw [find_duplicate_features, List.mem_toFinset, List.mem_filterMap] at hs
    rcases hs with ⟨h, hk, hf⟩
    by_cases hlen : 1 < (groupMembers t h).length
    · rw [if_pos hlen] at hf
      rcases Option.map_eq_some'.mp hf with ⟨r, hr, hrs⟩
      have hrg : r ∈ groupMembers t h := List.mem_of_mem_head? (by rw [hr]; rfl)
      rcases List.mem_filter.mp hrg with ⟨hrt, hrh⟩
      have hrh2 : r.full_hash = h := beq_iff_eq.mp hrh
      refine ⟨r, hrt, hrs, ?_⟩
      rw [hrh2]
      exact hlen
    · rw [if_neg hlen] at hf
      cases hf
  · intro r hr hlen
    have hself : r ∈ groupMembers t r.full_hash :=
      List.mem_filter.mpr ⟨hr, beq_iff_eq.mpr rfl⟩
    have hne : groupMembers t r.full_hash ≠ [] := by
      intro hnil
      rw [hnil] at hself
      cases hself
    cases hgm : groupMembers t r.full_hash with
    | nil => exact absurd hgm hne
    | cons q rest =>
        have hq : q ∈ groupMembers t r.full_hash := by
          rw [hgm]
          exact List.mem_cons_self q rest
        rcases List.mem_filter.mp hq with ⟨hqt, hqh⟩
        refine ⟨q, hqt, beq_iff_eq.mp hqh, ?_⟩
        rw [find_duplicate_features, List.mem_toFinset, List.mem_filterMap]
        refine ⟨r.full_hash, ?_, ?_⟩
        · rw [fullHashKeys, List.mem_dedup]
          exact List.mem_map.mpr ⟨r, hr, rfl⟩
        · rw [if_pos hlen, hgm]
          rfl
  · intro r1 r2 he
    have hmap : [r1, r2].map (fun r => r.full_hash)
        = [r2.full_hash, r2.full_hash] := by
      simp [he]
    have hkeys : fullHashKeys [r1, r2] = [r2.full_hash] := by
      rw [fullHashKeys, hmap]
      simp
    have hgrp : groupMembers [r1, r2] r2.full_hash = [r1, r2] := by
      rw [groupMembers]
      simp [List.filter, he]
    rw [find_duplicate_features, hkeys]
    have hlist : ([r2.full_hash].filterMap (fun h =>
        if 1 < (groupMembers [r1, r2] h).length then
          ((groupMembers [r1, r2] h).head?).map (fun r => toString r.src_pkey)
        else none)) = [toString r1.src_pkey] := by
      rw [List.filterMap_cons]
      simp only [hgrp]
      rw [if_pos (by simp)]
      rfl
    rw [hlist]
    simp

/-- Witness for find_duplicate_features_representatives at a concrete table
of two identical features. -/
theorem find_duplicate_features_representatives_witness :
    ∃ q, q ∈ [loadRow id 1 [] [some "x"] "G", loadRow id 2 [] [some "x"] "G"]
      ∧ q.full_hash = (loadRow id 1 [] [some "x"] "G").full_hash
      ∧ toString q.src_pkey
          ∈ find_duplicate_features
              [loadRow id 1 [] [some "x"] "G", loadRow id 2 [] [some "x"] "G"] := by
  exact (find_duplicate_features_representatives
      [loadRow id 1 [] [some "x"] "G", loadRow id 2 [] [some "x"] "G"]).2.1
    (loadRow id 1 [] [some "x"] "G") (by decide) (by decide)

/-- The LIKE pattern of identify_old_table (with the backslash escape): the
name is the provider name, a literal underscore, four single-character
wildcards, a literal underscore, two wildcards, a literal underscore and two
wildcards, matching the snapshot naming scheme. -/
def snapshotNameMatches (provider name : String) : Bool :=
  let p := provider.data
  let d := name.data
  (d.length == p.length + 11) && (d.take p.length == p)
    && (d.getD p.length ' ' == '_') && (d.getD (p.length + 5) ' ' == '_')
    && (d.getD (p.length + 8) ' ' == '_')

/-- The NOT LIKE filter of identify_old_table: in this second pattern the
underscore is an unescaped single-character wildcard, so it excludes every
name consisting of the provider name, any one character, the four letters
f r o m, and then anything. -/
def changeSummaryNameMatches (provider name : String) : Bool :=
  let p := provider.data
  let d := name.data
  decide (p.length + 5 ≤ d.length) && (d.take p.length == p)
    && ((d.drop (p.length + 1)).take 4 == "from".data)

/-- The rows fetched by the catalogue query of identify_old_table. -/
def snapshotTables (tables : List String) (provider : String) : List String :=
  tables.filter (fun n =>
    snapshotNameMatches provider n && !(changeSummaryNameMatches provider n))

instance : DecidableRel (fun a b : String => b ≤ a) :=
  fun a b => inferInstanceAs (Decidable (b ≤ a))

instance : IsTotal String (fun a b => b ≤ a) := ⟨fun a b => le_total b a⟩

instance : IsTrans String (fun a b => b ≤ a) :=
  ⟨fun _x _y _z hab hbc => le_trans hbc hab⟩

/-- ORDER BY name DESC. -/
def sortDesc (l : List String) : List String :=
  List.insertionSort (fun a b => b ≤ a) l

/-- identify_old_table: fetch the provider's snapshot tables (excluding
change summary tables) ordered by name descending and return the second
entry when more than one exists, otherwise None. -/
def identify_old_table (tables : List String) (provider : String) : Option String :=
  if 1 < (sortDesc (snapshotTables tables provider)).length then
    (sortDesc (snapshotTables tables provider))[1]?
  else none

/-- detect_changes creates and populates a change summary table only when
identify_old_table returned a table name. -/
def change_table_created (tables : List String) (provider : String) : Bool :=
  (identify_old_table tables provider).isSome

/-- C8: the history resolver keeps only tables matching the provider's
snapshot pattern (excluding change summary names) ordered by name
descending; with at least two matches it returns the second most recent (a
match with exactly one strictly greater match), and with zero or one matches
it returns none, so no change summary table is created for that run. -/
theorem identify_old_table_second_most_recent
    (tables : List String) (provider : String) (hnd : tables.Nodup) :
    ((snapshotTables tables provider).length ≤ 1 →
        identify_old_table tables provider = none
          ∧ change_table_created tables provider = false)
  ∧ (2 ≤ (snapshotTables tables provider).length →
        ∃ t, identify_old_table tables provider = some t
          ∧ t ∈ snapshotTables tables provider
          ∧ ((snapshotTables tables provider).filter
              (fun m => decide (t < m))).length = 1) := by
  have hperm : (sortDesc (snapshotTables tables provider)).Perm
      (snapshotTables tables provider) :=
    List.perm_insertionSort _ _
  have hlen : (sortDesc (snapshotTables tables provider)).length
      = (snapshotTables tables provider).length := hperm.length_eq
  have hsorted : List.Sorted (fun a b : String => b ≤ a)
      (sortDesc (snapshotTables tables provider)) :=
    List.sorted_insertionSort _ _
  have hndm : (snapshotTables tables provider).Nodup := List.Nodup.filter _ hnd
  have hnds : (sortDesc (snapshotTables tables provider)).Nodup :=
    hperm.nodup_iff.mpr hndm
  constructor
  · intro hle
    have hnone : identify_old_table tables provider = none := by
      unfold identify_old_table
      rw [if_neg]
      omega
    refine ⟨hnone, ?_⟩
    unfold change_table_created
    rw [hnone]
    rfl
  · intro hge
    cases hs : sortDesc (snapshotTables tables provider) with
    | nil =>
        rw [hs] at hlen
        simp at hlen
        omega
    | cons x t1 =>
        cases t1 with
        | nil =>
            rw [hs] at hlen
            simp at hlen
            omega
        | cons y rest =>
            refine ⟨y, ?_, ?_, ?_⟩
            · unfold identify_old_table
              rw [hs]
              rw [if_pos (by simp)]
              simp
            · have hy3 : y ∈ sortDesc (snapshotTables tables provider) := by
                rw [hs]
                exact List.mem_cons_of_mem x (List.mem_cons_self y rest)
              exact hperm.mem_iff.mp hy3
            · rw [hs] at hsorted hnds
              rcases List.sorted_cons.mp hsorted with ⟨hxall, htail⟩
              rcases List.sorted_cons.mp htail with ⟨hyall, _⟩
              have hyx : y ≤ x := hxall y (List.mem_cons_self y rest)
              have hxy : x ≠ y := by
                intro he
                rcases List.nodup_cons.mp hnds with ⟨hxnot, _⟩
                exact hxnot (by rw [he]; exact List.mem_cons_self y rest)
              have hylt : y < x := lt_of_le_of_ne hyx (fun he => hxy he.symm)
              have hfp : ((x :: y :: rest).filter
                  (fun m => decide (y < m))).length = 1 := by
                rw [List.filter_cons, if_pos (by simpa using hylt)]
                rw [List.filter_cons, if_neg (by simp)]
                rw [List.filter_eq_nil_iff.mpr ?hrest]
                case hrest =>
                  intro z hz
                  simp only [decide_eq_true_eq]
                  exact not_lt.mpr (hyall z hz)
                rfl
              have hfperm := (List.Perm.filter
                (fun m => decide (y < m)) hperm).length_eq
              rw [hs] at hfperm
              rw [← hfperm]
              exact hfp

/-- Witness for identify_old_table_second_most_recent: one snapshot only. -/
theorem identify_old_table_witness :
    identify_old_table ["Mission_2021_07_20"] "Mission" = none
      ∧ change_table_created ["Mission_2021_07_20"] "Mission" = false := by
  exact (identify_old_table_second_most_recent ["Mission_2021_07_20"] "Mission"
    (by decide)).1 (by decide)

/-- The backup names tried by the rotation loop of
create_and_populate_change_table. -/
def backupName (t : String) (i : Nat) : String := t ++ "_backup" ++ toString i

/-- The table names of a catalogue of (table name, content) pairs. -/
def tableNames {α : Type} (store : List (String × α)) : List String :=
  store.map Prod.fst

/-- The while loop of the rotation: starting at i = 1, find the first backup
name not present in the catalogue. The catalogue is finite, so a fuel of one
more than the number of tables bounds the search. -/
def findBackupIdxAux (names : List String) (t : String) : Nat → Nat → Nat
  | i, 0 => i
  | i, fuel + 1 =>
      if names.contains (backupName t i) then findBackupIdxAux names t (i + 1) fuel
      else i

def findBackupIdx (names : List String) (t : String) : Nat :=
  findBackupIdxAux names t 1 (names.length + 1)

/-- ALTER TABLE src RENAME TO dst applied to a catalogue. -/
def renameTable {α : Type} (store : List (String × α)) (src dst : String) :
    List (String × α) :=
  store.map (fun e => if e.1 = src then (dst, e.2) else e)

/-- The table check and backup rotation at the head of
create_and_populate_change_table, followed by the creation of the fresh
change table with the given content. -/
def create_or_rotate {α : Type} (store : List (String × α)) (t : String)
    (content : α) : List (String × α) :=
  if (tableNames store).contains t then
    (t, content)
      :: renameTable store t (backupName t (findBackupIdx (tableNames store) t))
  else
    (t, content) :: store

def lookupTable {α : Type} (store : List (String × α)) (t : String) : Option α :=
  (store.find? (fun e => e.1 == t)).map Prod.snd

theorem contains_false_of_not_mem {l : List String} {x : String} (h : x ∉ l) :
    l.contains x = false := by
  cases hc : l.contains x
  · rfl
  · exact absurd (List.elem_iff.mp hc) h

theorem contains_true_of_mem {l : List String} {x : String} (h : x ∈ l) :
    l.contains x = true := List.elem_iff.mpr h

theorem backupName_ne_base (t : String) (i : Nat) : backupName t i ≠ t := by
  intro h
  have hl := congrArg String.length h
  rw [backupName, String.length_append, String.length_append] at hl
  have h7 : ("_backup" : String).length = 7 := rfl
  rw [h7] at hl
  omega

theorem backupName_one_ne_two (t : String) : backupName t 1 ≠ backupName t 2 := by
  intro h
  have hd := congrArg String.data h
  simp only [backupName, String.data_append, List.append_assoc] at hd
  have h2 := List.append_cancel_left hd
  have h3 := List.append_cancel_left h2
  exact absurd h3 (by decide)

theorem findBackupIdxAux_step_true {names : List String} {t : String} {i fuel : Nat}
    (h : names.contains (backupName t i) = true) :
    findBackupIdxAux names t i (fuel + 1) = findBackupIdxAux names t (i + 1) fuel := by
  simp only [findBackupIdxAux]
  rw [if_pos h]

theorem findBackupIdxAux_step_false {names : List String} {t : String} {i fuel : Nat}
    (h : names.contains (backupName t i) = false) :
    findBackupIdxAux names t i (fuel + 1) = i := by
  simp only [findBackupIdxAux]
  rw [if_neg]
  rw [h]
  intro hc
  cases hc

theorem findBackupIdxAux_spec (names : List String) (t : String) :
    ∀ fuel i, (∃ j, i ≤ j ∧ j < i + fuel ∧ backupName t j ∉ names) →
      backupName t (findBackupIdxAux names t i fuel) ∉ names
        ∧ i ≤ findBackupIdxAux names t i fuel
        ∧ ∀ k, i ≤ k → k < findBackupIdxAux names t i fuel →
            backupName t k ∈ names := by
  intro fuel
  induction fuel with
  | zero =>
      rintro i ⟨j, hij, hjf, _⟩
      omega
  | succ f ih =>
      intro i hex
      cases hc : names.contains (backupName t i) with
      | false =>
          rw [findBackupIdxAux_step_false hc]
          refine ⟨?_, le_refl i, ?_⟩
          · intro hmem
            rw [contains_true_of_mem hmem] at hc
            cases hc
          · intro k hk1 hk2
            omega
      | true =>
          rw [findBackupIdxAux_step_true hc]
          have hex2 : ∃ j, i + 1 ≤ j ∧ j < (i + 1) + f ∧ backupName t j ∉ names := by
            rcases hex with ⟨j, hij, hjf, hjm⟩
            refine ⟨j, ?_, by omega, hjm⟩
            rcases Nat.eq_or_lt_of_le hij with he | hlt
            · rw [he] at hc
              exact absurd (List.elem_iff.mp hc) hjm
            · omega
          rcases ih (i + 1) hex2 with ⟨ha, hb2, hcc⟩
          refine ⟨ha, by omega, ?_⟩
          intro k hk1 hk2
          rcases Nat.eq_or_lt_of_le hk1 with he | hlt
          · rw [← he]
            exact List.elem_iff.mp hc
          · exact hcc k (by omega) hk2

theorem findBackupIdx_eq_one {names : List String} {t : String}
    (h : backupName t 1 ∉ names) : findBackupIdx names t = 1 := by
  unfold findBackupIdx
  rw [findBackupIdxAux_step_false (contains_false_of_not_mem h)]

theorem findBackupIdx_eq_two {names : List String} {t : String}
    (h1 : backupName t 1 ∈ names) (h2 : backupName t 2 ∉ names) :
    findBackupIdx names t = 2 := by
  unfold findBackupIdx
  have hpos : 0 < names.length := List.length_pos.mpr (List.ne_nil_of_mem h1)
  cases hn : names.length with
  | zero => omega
  | succ m =>
      rw [findBackupIdxAux_step_true (contains_true_of_mem h1)]
      rw [findBackupIdxAux_step_false (contains_false_of_not_mem h2)]

theorem renameTable_id {α : Type} {store : List (String × α)} {t : String}
    (h : t ∉ tableNames store) (dst : String) : renameTable store t dst = store := by
  unfold renameTable
  have hcc : ∀ e ∈ store, (if e.1 = t then (dst, e.2) else e) = e := by
    intro e he
    have hne : e.1 ≠ t := by
      intro het
      exact h (by rw [← het]; exact List.mem_map.mpr ⟨e, he, rfl⟩)
    simp [hne]
  calc store.map (fun e => if e.1 = t then (dst, e.2) else e)
      = store.map id := List.map_congr_left hcc
  _ = store := List.map_id store

theorem lookupTable_cons_hit {α : Type} (name : String) (c : α)
    (rest : List (String × α)) : lookupTable ((name, c) :: rest) name = some c := by
  unfold lookupTable
  rw [List.find?_cons_of_pos]
  · rfl
  · exact beq_iff_eq.mpr rfl

theorem lookupTable_cons_miss {α : Type} {name n : String} (h : name ≠ n) (c : α)
    (rest : List (String × α)) :
    lookupTable ((name, c) :: rest) n = lookupTable rest n := by
  unfold lookupTable
  rw [List.find?_cons_of_neg]
  intro hb
  exact h (beq_iff_eq.mp hb)

/-- C6: rotating an existing change table renames it to the backup name with
the smallest unused positive index before the new table is created, so
creating, rotating and creating again never loses data: after the second
creation the first content is at backup1, and after a third creation the
second content is at backup2 with the first still at backup1, without
collision. The final conjunct is the general least-unused property of the
rotation loop. -/
theorem backup_rotation (α : Type) (store : List (String × α)) (t : String)
    (c1 c2 c3 : α)
    (h0 : t ∉ tableNames store)
    (h1 : backupName t 1 ∉ tableNames store)
    (h2 : backupName t 2 ∉ tableNames store) :
    lookupTable (create_or_rotate (create_or_rotate store t c1) t c2) t = some c2
  ∧ lookupTable (create_or_rotate (create_or_rotate store t c1) t c2)
      (backupName t 1) = some c1
  ∧ lookupTable (create_or_rotate (create_or_rotate (create_or_rotate store t c1)
      t c2) t c3) t = some c3
  ∧ lookupTable (create_or_rotate (create_or_rotate (create_or_rotate store t c1)
      t c2) t c3) (backupName t 1) = some c1
  ∧ lookupTable (create_or_rotate (create_or_rotate (create_or_rotate store t c1)
      t c2) t c3) (backupName t 2) = some c2
  ∧ (∀ names : List String,
      (∃ j, 1 ≤ j ∧ j < names.length + 2 ∧ backupName t j ∉ names) →
        backupName t (findBackupIdx names t) ∉ names
          ∧ 1 ≤ findBackupIdx names t
          ∧ ∀ k, 1 ≤ k → k < findBackupIdx names t → backupName t k ∈ names) := by
  have hb1t : backupName t 1 ≠ t := backupName_ne_base t 1
  have hb2t : backupName t 2 ≠ t := backupName_ne_base t 2
  have hb12 : backupName t 1 ≠ backupName t 2 := backupName_one_ne_two t
  have hs1 : create_or_rotate store t c1 = (t, c1) :: store := by
    unfold create_or_rotate
    rw [contains_false_of_not_mem h0]
    simp
  have hn1 : tableNames ((t, c1) :: store) = t :: tableNames store := rfl
  have hidx1 : findBackupIdx (tableNames ((t, c1) :: store)) t = 1 := by
    rw [hn1]
    apply findBackupIdx_eq_one
    intro hmem
    rcases List.mem_cons.mp hmem with he | hm
    · exact hb1t he
    · exact h1 hm
  have hs2 : create_or_rotate (create_or_rotate store t c1) t c2
      = (t, c2) :: (backupName t 1, c1) :: store := by
    rw [hs1]
    unfold create_or_rotate renameTable
    rw [contains_true_of_mem (by rw [hn1]; exact List.mem_cons_self t _)]
    simp only [hidx1]
    rw [List.map_cons]
    have hrest : store.map (fun e => if e.1 = t then (backupName t 1, e.2) else e)
        = store := renameTable_id h0 (backupName t 1)
    rw [hrest]
    simp
  have hn2 : tableNames ((t, c2) :: (backupName t 1, c1) :: store)
      = t :: backupName t 1 :: tableNames store := rfl
  have hidx2 : findBackupIdx
      (tableNames ((t, c2) :: (backupName t 1, c1) :: store)) t = 2 := by
    rw [hn2]
    apply findBackupIdx_eq_two
    · exact List.mem_cons_of_mem t (List.mem_cons_self _ _)
    · intro hmem
      rcases List.mem_cons.mp hmem with he | hm
      · exact hb2t he
      · rcases List.mem_cons.mp hm with he2 | hm2
        · exact hb12 he2.symm
        · exact h2 hm2
  have hs3 : create_or_rotate (create_or_rotate (create_or_rotate store t c1)
      t c2) t c3
      = (t, c3) :: (backupName t 2, c2) :: (backupName t 1, c1) :: store := by
    rw [hs2]
    unfold create_or_rotate renameTable
    rw [contains_true_of_mem (by rw [hn2]; exact List.mem_cons_self t _)]
    simp only [hidx2]
    rw [List.map_cons, List.map_cons]
    have hrest : store.map (fun e => if e.1 = t then (backupName t 2, e.2) else e)
        = store := renameTable_id h0 (backupName t 2)
    rw [hrest]
    simp [hb1t]
  refine ⟨?_, ?_, ?_, ?_, ?_, ?_⟩
  · rw [hs2]
    exact lookupTable_cons_hit t c2 _
  · rw [hs2]
    rw [lookupTable_cons_miss (fun he => hb1t he.symm) c2 _]
    exact lookupTable_cons_hit (backupName t 1) c1 _
  · rw [hs3]
    exact lookupTable_cons_hit t c3 _
  · rw [hs3]
    rw [lookupTable_cons_miss (fun he => hb1t he.symm) c3 _]
    rw [lookupTable_cons_miss (fun he => hb12 he.symm) c2 _]
    exact lookupTable_cons_hit (backupName t 1) c1 _
  · rw [hs3]
    rw [lookupTable_cons_miss (fun he => hb2t he.symm) c3 _]
    exact lookupTable_cons_hit (backupName t 2) c2 _
  · intro names hex
    exact findBackupIdxAux_spec names t (names.length + 1) 1
      (by rcases hex with ⟨j, hj1, hj2, hj3⟩; exact ⟨j, hj1, by omega, hj3⟩)

/-- Witness for backup_rotation on an empty catalogue. -/
theorem backup_rotation_witness :
    lookupTable (create_or_rotate
      (create_or_rotate ([] : List (String × Nat)) "T" 10) "T" 20)
      (backupName "T" 1) = some 10 := by
  exact (backup_rotation Nat [] "T" 10 20 30 (by decide) (by decide) (by decide)).2.1

/-- A database operation issued by the loader: drop, create, one insert per
feature, and connection commit. -/
inductive DbOp where
  | dropTable (t : String)
  | createTable (t : String)
  | insertRow (t : String) (r : SnapshotRow)
  | commit
deriving DecidableEq

/-- Transactional store state: the committed view and the working view of the
currently open transaction. -/
structure DbState where
  committed : List (String × List SnapshotRow)
  working : List (String × List SnapshotRow)
deriving DecidableEq

def removeTable (s : List (String × List SnapshotRow)) (t : String) :
    List (String × List SnapshotRow) :=
  s.filter (fun e => !(e.1 == t))

def appendRow (s : List (String × List SnapshotRow)) (t : String)
    (r : SnapshotRow) : List (String × List SnapshotRow) :=
  s.map (fun e => if e.1 = t then (e.1, e.2 ++ [r]) else e)

def stepOp (st : DbState) : DbOp → DbState
  | DbOp.dropTable t => { st with working := removeTable st.working t }
  | DbOp.createTable t => { st with working := (t, []) :: st.working }
  | DbOp.insertRow t r => { st with working := appendRow st.working t r }
  | DbOp.commit => { committed := st.working, working := st.working }

def runOps (init : List (String × List SnapshotRow)) (ops : List DbOp) : DbState :=
  ops.foldl stepOp { committed := init, working := init }

/-- The sequence of database operations issued by load_data_and_compute_hash:
when a table of the target name exists it is dropped and the drop committed;
create_sqlite_table creates the table and commits; then one insert per
feature and a single commit after the feature loop. -/
def load_ops (tableExisted : Bool) (t : String) (rows : List SnapshotRow) :
    List DbOp :=
  (if tableExisted then [DbOp.dropTable t, DbOp.commit] else [])
    ++ [DbOp.createTable t, DbOp.commit]
    ++ rows.map (DbOp.insertRow t) ++ [DbOp.commit]

def commitCount (ops : List DbOp) : Nat := ops.count DbOp.commit

def committedRows (st : DbState) (t : String) : Option (List SnapshotRow) :=
  lookupTable st.committed t

theorem lookup_removeTable (s : List (String × List SnapshotRow)) (t : String) :
    lookupTable (removeTable s t) t = none := by
  unfold lookupTable removeTable
  rw [List.find?_eq_none.mpr]
  · rfl
  · intro e he hb
    rcases List.mem_filter.mp he with ⟨_, hcond⟩
    rw [hb] at hcond
    cases hcond

theorem foldl_insert_committed (t : String) (l : List SnapshotRow) :
    ∀ st : DbState, ((l.map (DbOp.insertRow t)).foldl stepOp st).committed
      = st.committed := by
  induction l with
  | nil => intro st; rfl
  | cons r rest ih =>
      intro st
      simp only [List.map_cons, List.foldl_cons]
      rw [ih]
      rfl

theorem foldl_insert_working (t : String) : ∀ (l acc : List SnapshotRow)
    (C W : List (String × List SnapshotRow)),
    ∃ W2, (l.map (DbOp.insertRow t)).foldl stepOp ⟨C, (t, acc) :: W⟩
      = ⟨C, (t, acc ++ l) :: W2⟩ := by
  intro l
  induction l with
  | nil =>
      intro acc C W
      exact ⟨W, by simp⟩
  | cons r rest ih =>
      intro acc C W
      simp only [List.map_cons, List.foldl_cons]
      have hstep : stepOp ⟨C, (t, acc) :: W⟩ (DbOp.insertRow t r)
          = ⟨C, (t, acc ++ [r]) :: appendRow W t r⟩ := by
        simp [stepOp, appendRow]
      rw [hstep]
      rcases ih (acc ++ [r]) C (appendRow W t r) with ⟨W2, hW2⟩
      refine ⟨W2, ?_⟩
      rw [hW2]
      simp

/-- C5: counterexample. With one prior committed row under the target table
name and one feature to load, the load issues three commits, not one; and
executing only the operations up to the commit that follows table creation (a
failure during the feature loop) leaves as committed state the old table
dropped and the new table empty: partial state is visible as committed. -/
theorem load_not_single_transaction :
    commitCount (load_ops true "T" [loadRow id 2 [] [] "B"]) = 3
      ∧ committedRows
          (runOps [("T", [loadRow id 1 [] [] "A"])]
            ((load_ops true "T" [loadRow id 2 [] [] "B"]).take 4)) "T"
        = some [] := by
  constructor
  · rfl
  · rfl

/-- C5 (amended): the load commits at three points - after dropping an
existing same-name table, after creating the new table, and once at the end
covering every row insert. The inserts themselves are atomic: at every prefix
of the operation sequence the committed content of the target table is its
initial content, absent, empty, or the complete row list, never a proper
nonempty prefix of the loaded rows. -/
theorem load_commit_structure (e : Bool) (t : String) (rows : List SnapshotRow)
    (init : List (String × List SnapshotRow)) (k : Nat) :
    commitCount (load_ops e t rows) = (if e then 3 else 2)
  ∧ (committedRows (runOps init ((load_ops e t rows).take k)) t
        = lookupTable init t
    ∨ committedRows (runOps init ((load_ops e t rows).take k)) t = none
    ∨ committedRows (runOps init ((load_ops e t rows).take k)) t = some []
    ∨ committedRows (runOps init ((load_ops e t rows).take k)) t = some rows) := by
  have hcins : (rows.map (DbOp.insertRow t)).count DbOp.commit = 0 := by
    rw [List.count_eq_zero]
    intro hmem
    rcases List.mem_map.mp hmem with ⟨r, _, he⟩
    cases he
  constructor
  · cases e <;>
      simp [load_ops, commitCount, List.count_append, List.count_cons, hcins]
  · cases e with
    | false =>
        have hlist : load_ops false t rows
            = DbOp.createTable t :: DbOp.commit
                :: (rows.map (DbOp.insertRow t) ++ [DbOp.commit]) := by
          simp [load_ops]
        rw [hlist]
        by_cases hk2 : k ≤ 2
        · interval_cases k
          · left
            rfl
          · left
            rfl
          · right; right; left
            show lookupTable ((t, []) :: init) t = some []
            exact lookupTable_cons_hit t [] init
        · have hk : k = (k - 2) + 2 := by omega
          rw [hk]
          have htake : List.take ((k - 2) + 2)
              (DbOp.createTable t :: DbOp.commit
                :: (rows.map (DbOp.insertRow t) ++ [DbOp.commit]))
              = DbOp.createTable t :: DbOp.commit
                :: List.take (k - 2) (rows.map (DbOp.insertRow t) ++ [DbOp.commit]) := by
            rw [List.take_succ_cons, List.take_succ_cons]
          rw [htake]
          have hrun : ∀ l : List DbOp,
              runOps init (DbOp.createTable t :: DbOp.commit :: l)
                = l.foldl stepOp ⟨(t, []) :: init, (t, []) :: init⟩ := by
            intro l
            rfl
          rw [hrun]
          rw [List.take_append_eq_append_take]
          by_cases hkr : k - 2 ≤ rows.length
          · have hz : k - 2 - (rows.map (DbOp.insertRow t)).length = 0 ∨
                (k - 2 - (rows.map (DbOp.insertRow t)).length = 1
                  ∧ k - 2 = rows.length + 1) := by
              rw [List.length_map]
              omega
            rcases hz with hz | hz
            · rw [hz, List.take_zero, List.append_nil]
              rw [← List.map_take]
              right; right; left
              unfold committedRows
              rw [foldl_insert_committed]
              exact lookupTable_cons_hit t [] init
            · omega
          · right; right; right
            have hx : List.take (k - 2) (rows.map (DbOp.insertRow t))
                = rows.map (DbOp.insertRow t) :=
              List.take_of_length_le (by rw [List.length_map]; omega)
            have hy : List.take (k - 2 - (rows.map (DbOp.insertRow t)).length)
                [DbOp.commit] = [DbOp.commit] :=
              List.take_of_length_le (by simp [List.length_map]; omega)
            rw [hx, hy]
            rw [List.foldl_append]
            rcases foldl_insert_working t rows [] ((t, []) :: init) init
              with ⟨W2, hW2⟩
            simp only [List.nil_append] at hW2
            rw [hW2]
            show lookupTable ((t, rows) :: W2) t = some rows
            exact lookupTable_cons_hit t rows W2
    | true =>
        have hlist : load_ops true t rows
            = DbOp.dropTable t :: DbOp.commit :: DbOp.createTable t :: DbOp.commit
                :: (rows.map (DbOp.insertRow t) ++ [DbOp.commit]) := by
          simp [load_ops]
        rw [hlist]
        by_cases hk4 : k ≤ 4
        · interval_cases k
          · left
            rfl
          · left
            rfl
          · right; left
            exact lookup_removeTable init t
          · right; left
            exact lookup_removeTable init t
          · right; right; left
            show lookupTable ((t, []) :: removeTable init t) t = some []
            exact lookupTable_cons_hit t [] (removeTable init t)
        · have hk : k = (k - 4) + 4 := by omega
          rw [hk]
          have htake : List.take ((k - 4) + 4)
              (DbOp.dropTable t :: DbOp.commit :: DbOp.createTable t :: DbOp.commit
                :: (rows.map (DbOp.insertRow t) ++ [DbOp.commit]))
              = DbOp.dropTable t :: DbOp.commit :: DbOp.createTable t :: DbOp.commit
                :: List.take (k - 4) (rows.map (DbOp.insertRow t) ++ [DbOp.commit]) := by
            rw [List.take_succ_cons, List.take_succ_cons, List.take_succ_cons,
              List.take_succ_cons]
          rw [htake]
          have hrun : ∀ l : List DbOp,
              runOps init (DbOp.dropTable t :: DbOp.commit :: DbOp.createTable t
                  :: DbOp.commit :: l)
                = l.foldl stepOp ⟨(t, []) :: removeTable init t,
                    (t, []) :: removeTable init t⟩ := by
            intro l
            rfl
          rw [hrun]
          rw [List.take_append_eq_append_take]
          by_cases hkr : k - 4 ≤ rows.length
          · have hz : k - 4 - (rows.map (DbOp.insertRow t)).length = 0 ∨
                (k - 4 - (rows.map (DbOp.insertRow t)).length = 1
                  ∧ k - 4 = rows.length + 1) := by
              rw [List.length_map]
              omega
            rcases hz with hz | hz
            · rw [hz, List.take_zero, List.append_nil]
              rw [← List.map_take]
              right; right; left
              unfold committedRows
              rw [foldl_insert_committed]
              exact lookupTable_cons_hit t [] (removeTable init t)
            · omega
          · right; right; right
            have hx : List.take (k - 4) (rows.map (DbOp.insertRow t))
                = rows.map (DbOp.insertRow t) :=
              List.take_of_length_le (by rw [List.length_map]; omega)
            have hy : List.take (k - 4 - (rows.map (DbOp.insertRow t)).length)
                [DbOp.commit] = [DbOp.commit] :=
              List.take_of_length_le (by simp [List.length_map]; omega)
            rw [hx, hy]
            rw [List.foldl_append]
            rcases foldl_insert_working t rows [] ((t, []) :: removeTable init t)
              (removeTable init t) with ⟨W2, hW2⟩
            simp only [List.nil_append] at hW2
            rw [hW2]
            show lookupTable ((t, rows) :: W2) t = some rows
            exact lookupTable_cons_hit t rows W2

/-- The base geometry families of the ogr type codes tested by
export_change_table. -/
inductive GeomBase where
  | point
  | lineString
  | polygon
  | curve
  | surface
deriving DecidableEq

/-- Dimension variants carried by the ogr type codes: plain 2D, Z (also
spelled 25D), M and ZM. -/
inductive GeomDim where
  | xy
  | z
  | m
  | zm
deriving DecidableEq

/-- An ogr geometry type code: multi flag, base family, dimension variant. -/
structure GeomType where
  multi : Bool
  base : GeomBase
  dim : GeomDim
deriving DecidableEq

/-- The type codes enumerated by the pre-scan of export_change_table are the
five multi families in the 2D, Z or 25D, M and ZM variants: exactly the codes
with the multi flag set. -/
def isMultiType (g : GeomType) : Bool := g.multi

/-- has_multi: scan the geometry column of the whole table for a multi
type. -/
def hasMultiGeometry (geoms : List GeomType) : Bool := geoms.any isMultiType

/-- The comparison made by the polygon and point promotion branches of the
source: the bound method object geom.GetGeometryType, written without call
parentheses, is compared against an integer type code; a method object never
equals an integer, so the comparison is always false. -/
def methodObjectEqualsTypeCode : Bool := false

/-- ogr ForceToMulti conversion of a type code to its multi counterpart. -/
def forceToMulti (g : GeomType) : GeomType := { g with multi := true }

/-- The per-feature geometry conversion of export_change_table: when the
table holds a multi geometry, single line strings (whose branch calls
GetGeometryType with parentheses and covers all four dimension variants) are
promoted to multi line strings; the polygon and point branches compare the
method object itself and never fire. -/
def convertGeometry (hasMulti : Bool) (g : GeomType) : GeomType :=
  if hasMulti then
    let g1 := if g.multi = false ∧ g.base = GeomBase.lineString then forceToMulti g
      else g
    let g2 := if methodObjectEqualsTypeCode then forceToMulti g1 else g1
    let g3 := if methodObjectEqualsTypeCode then forceToMulti g2 else g2
    g3
  else g

/-- One output layer is created per distinct converted geometry type of the
exported rows. -/
def exportLayerTypes (geoms : List GeomType) : List GeomType :=
  (geoms.map (convertGeometry (hasMultiGeometry geoms))).dedup

/-- C3: evaluation at a failing input. A diff table holding one single-part
polygon and one multi polygon makes the pre-scan find multi and single
variants together, yet the single polygon is not promoted (the polygon branch
compares the GetGeometryType method object, which is never equal to a type
code), so the export creates two polygon layers, one holding a single-part
geometry, instead of one all-multi layer. The line-string case, whose branch
calls the method, is promoted as the claim describes. -/
theorem export_polygon_not_promoted :
    hasMultiGeometry [⟨false, GeomBase.polygon, GeomDim.xy⟩,
        ⟨true, GeomBase.polygon, GeomDim.xy⟩] = true
  ∧ convertGeometry true ⟨false, GeomBase.polygon, GeomDim.xy⟩
      = ⟨false, GeomBase.polygon, GeomDim.xy⟩
  ∧ (exportLayerTypes [⟨false, GeomBase.polygon, GeomDim.xy⟩,
        ⟨true, GeomBase.polygon, GeomDim.xy⟩]).length = 2
  ∧ convertGeometry true ⟨false, GeomBase.lineString, GeomDim.xy⟩
      = ⟨true, GeomBase.lineString, GeomDim.xy⟩
  ∧ exportLayerTypes [⟨false, GeomBase.lineString, GeomDim.xy⟩,
        ⟨true, GeomBase.lineString, GeomDim.xy⟩]
      = [⟨true, GeomBase.lineString, GeomDim.xy⟩] := by
  decide

end ChangeDetection
